import Mathlib

/-!
Shallow embedding of `src/repairCars.cpp` (class Solution: `check` and
`repairCars`), a binary-search minimiser for the minimum repair time.

Modelling decisions:
* `long long int` values are modelled as `Int`.  All arithmetic performed by
  the program stays far inside the 64-bit range (times are at most `10^15`,
  `s + e ≤ 2 * 10^15`), so no wraparound is modelled.
* `sqrt(time/nums[i])` in the source applies the C `double` square root to the
  (already truncated) integer quotient and truncates the result back to an
  integer.  For every quotient the program can produce (at most `10^15`,
  which is exactly representable in a `double`, with a correctly rounded
  square root far enough from the neighbouring integers), this equals the
  exact integer floor square root; the embedding uses the exact integer
  square root `isqrt` (proved equal to `Nat.sqrt` below).
* The C++ integer division truncates toward zero; every division the program
  performs has non-negative operands, where truncation agrees with the floor
  division `/` of `Int` used here.
* `ll ans;` in the source is an uninitialised variable that is returned even
  when the loop never assigns it.  The embedding makes this explicit with
  `Option Int`: `none` models "the loop finished without ever assigning
  `ans`" (an indeterminate value in C++), `some a` models a loop that
  assigned `ans := a` at least once.
* The `while (s <= e)` loop is modelled by `searchLoop`, structural recursion
  on a fuel argument so that the definition evaluates by kernel reduction;
  fuel `64` strictly exceeds the iteration count of the real loop (the
  interval `[0, 10^15]` has fewer than `2^64` points and shrinks by at least
  half each iteration), which `searchLoop_eq_searchGo` makes precise against
  the fuel-free recursion `searchGo`.
-/

namespace RepairCars

/-- Fuel-driven exact integer square root (digit recursion on `n / 4`).
The fuel only serves to make the recursion structural; `sqrtAux fuel n` is
the floor square root whenever `n < 4 ^ fuel`. -/
def sqrtAux : Nat → Nat → Nat
  | 0, _ => 0
  | fuel + 1, n =>
    if n = 0 then 0
    else
      let s := 2 * sqrtAux fuel (n / 4)
      if (s + 1) * (s + 1) ≤ n then s + 1 else s

/-- Exact integer floor square root, kernel-computable.  Models the
`(long long)sqrt(double)` conversion in the source, which coincides with the
exact floor square root on the program's domain. -/
def isqrt (n : Nat) : Nat := sqrtAux n n

/-- Capacity of a single worker: `ll c = sqrt(time/nums[i])` from the source.
For `time ≥ 0` and `r > 0` the quotient is non-negative and `.toNat` is the
identity on it. -/
def capacity (time r : Int) : Int := (isqrt (time / r).toNat : Int)

/-- `bool check(vector<int>&nums, ll req, ll time)` from the source: walk the
workers, subtract each capacity from `req`, return true as soon as
`req ≤ 0`, and finally return `req ≤ 0`. -/
def check : List Int → Int → Int → Bool
  | [], req, _ => decide (req ≤ 0)
  | r :: rest, req, time =>
    let c := capacity time r
    if req - c ≤ 0 then true else check rest (req - c) time

/-- Reference (non-early-exit) form of the predicate from the spec: sum all
capacities, then compare the full sum with the requirement once. -/
def checkSum (nums : List Int) (req time : Int) : Bool :=
  decide (req ≤ (nums.map fun r => capacity time r).sum)

/-- The search ceiling `e = 1e15` of the source. -/
def TIME_CEILING : Int := 10 ^ 15

/-- The `while (s <= e)` binary-search loop of `repairCars`, with fuel making
the recursion structural.  When the fuel runs out the current `ans` is
returned; `searchLoop_eq_searchGo` shows fuel `≥ log₂` of the interval makes
this case unreachable. -/
def searchLoop (ranks : List Int) (cars : Int) :
    Nat → Int → Int → Option Int → Option Int
  | 0, _, _, ans => ans
  | fuel + 1, s, e, ans =>
    if s ≤ e then
      let mid := (s + e) / 2
      if check ranks cars mid then
        searchLoop ranks cars fuel s (mid - 1) (some mid)
      else
        searchLoop ranks cars fuel (mid + 1) e ans
    else ans

/-- `long long repairCars(vector<int>& ranks, int cars)` from the source:
binary search on `[0, 10^15]`, returning the last assigned `ans`
(`none` when `ans` was never assigned, i.e. the uninitialised case). -/
def repairCars (ranks : List Int) (cars : Int) : Option Int :=
  searchLoop ranks cars 64 0 TIME_CEILING none

/-- The same loop as fuel-free well-founded recursion on the interval length:
the loop body itself, shown total. -/
def searchGo (ranks : List Int) (cars : Int) (s e : Int) (ans : Option Int) :
    Option Int :=
  if s ≤ e then
    let mid := (s + e) / 2
    if check ranks cars mid then
      searchGo ranks cars s (mid - 1) (some mid)
    else
      searchGo ranks cars (mid + 1) e ans
  else ans
termination_by (e + 1 - s).toNat
decreasing_by
  all_goals omega

/-! ### The fuel square root is the floor square root -/

theorem sqrtAux_isSqrt (fuel : Nat) :
    ∀ n : Nat, n < 4 ^ fuel →
      sqrtAux fuel n * sqrtAux fuel n ≤ n ∧
        n < (sqrtAux fuel n + 1) * (sqrtAux fuel n + 1) := by
  induction fuel with
  | zero =>
    intro n hn
    simp only [pow_zero, Nat.lt_one_iff] at hn
    subst hn
    simp [sqrtAux]
  | succ fuel ih =>
    intro n hn
    by_cases h0 : n = 0
    · subst h0; simp [sqrtAux]
    · have hquot : n / 4 < 4 ^ fuel := by
        have h4 : 4 ^ (fuel + 1) = 4 ^ fuel * 4 := by ring
        omega
      obtain ⟨hlo, hhi⟩ := ih (n / 4) hquot
      have hdiv : n < 4 * (n / 4) + 4 := by omega
      simp only [sqrtAux, h0, if_false]
      set q := sqrtAux fuel (n / 4) with hq
      by_cases hstep : (2 * q + 1) * (2 * q + 1) ≤ n
      · rw [if_pos hstep]
        have h1 : (2 * q + 1 + 1) * (2 * q + 1 + 1) = 4 * ((q + 1) * (q + 1)) := by
          ring
        exact ⟨hstep, by omega⟩
      · rw [if_neg hstep]
        have h2 : 2 * q * (2 * q) = 4 * (q * q) := by ring
        exact ⟨by omega, by omega⟩

theorem isqrt_eq_sqrt (n : Nat) : isqrt n = Nat.sqrt n := by
  have hfuel : n < 4 ^ n := by
    calc n < 2 ^ n := Nat.lt_two_pow n
    _ ≤ 4 ^ n := Nat.pow_le_pow_left (by omega) n
  obtain ⟨hlo, hhi⟩ := sqrtAux_isSqrt n n hfuel
  exact Nat.eq_sqrt.mpr ⟨hlo, hhi⟩

theorem capacity_eq (time r : Int) :
    capacity time r = (Nat.sqrt (time / r).toNat : Int) := by
  simp [capacity, isqrt_eq_sqrt]

theorem capacity_nonneg (time r : Int) : 0 ≤ capacity time r := by
  simp [capacity]

theorem capacity_mono (r t t' : Int) (hr : 0 < r) (h : t ≤ t') :
    capacity t r ≤ capacity t' r := by
  rw [capacity_eq, capacity_eq]
  have hdiv : t / r ≤ t' / r := Int.ediv_le_ediv hr h
  exact_mod_cast Nat.sqrt_le_sqrt (Int.toNat_le_toNat hdiv)

theorem capacity_sum_nonneg (nums : List Int) (time : Int) :
    0 ≤ (nums.map fun r => capacity time r).sum := by
  refine List.sum_nonneg fun x hx => ?_
  obtain ⟨a, _, rfl⟩ := List.mem_map.mp hx
  exact capacity_nonneg time a

/-- The early-exit loop computes the same boolean as the full-sum form. -/
theorem check_eq_sum (nums : List Int) (req time : Int) :
    check nums req time = checkSum nums req time := by
  induction nums generalizing req with
  | nil => simp [check, checkSum]
  | cons r rest ih =>
    have hrest := capacity_sum_nonneg rest time
    simp only [check, checkSum, List.map_cons, List.sum_cons]
    by_cases h : req - capacity time r ≤ 0
    · rw [if_pos h]
      have hle : req ≤ capacity time r + (rest.map fun x => capacity time x).sum := by
        omega
      simp [hle]
    · rw [if_neg h, ih, checkSum]
      rw [decide_eq_decide]
      omega

theorem checkSum_mono (nums : List Int) (req t t' : Int)
    (hpos : ∀ r ∈ nums, 0 < r) (h : t ≤ t')
    (hc : checkSum nums req t = true) : checkSum nums req t' = true := by
  simp only [checkSum, decide_eq_true_eq] at hc ⊢
  refine le_trans hc (List.sum_le_sum fun r hr => ?_)
  exact capacity_mono r t t' (hpos r hr) h

theorem check_mono_aux (nums : List Int) (req t t' : Int)
    (hpos : ∀ r ∈ nums, 0 < r) (h : t ≤ t')
    (hc : check nums req t = true) : check nums req t' = true := by
  rw [check_eq_sum] at hc ⊢
  exact checkSum_mono nums req t t' hpos h hc

theorem check_of_nonpos_req (nums : List Int) (req time : Int) (h : req ≤ 0) :
    check nums req time = true := by
  rw [check_eq_sum]
  have := capacity_sum_nonneg nums time
  simp only [checkSum, decide_eq_true_eq]
  omega

/-- The binary-search interval at least halves in each direction. -/
theorem interval_halves (s e mid : Int) (N : Nat) (hse : s ≤ e)
    (hmid : mid = (s + e) / 2) (hsize : (e + 1 - s).toNat < 2 * N) :
    (mid - 1 + 1 - s).toNat < N ∧ (e + 1 - (mid + 1)).toNat < N := by
  omega

/-- Main invariant of the `while (s <= e)` loop: provided the predicate is
monotone and true at `E`, a state whose lower part `[0, s)` is all-infeasible
and whose `ans` is either untouched (with `e` still `E`) or the feasible
value `e + 1` ends with `ans = some T` for the least feasible time `T`. -/
theorem searchLoop_finds (ranks : List Int) (req E : Int)
    (mono : ∀ t t' : Int, t ≤ t' → check ranks req t = true →
      check ranks req t' = true)
    (hE0 : 0 ≤ E) (hE : check ranks req E = true) :
    ∀ fuel : Nat, ∀ s e : Int, ∀ ans : Option Int,
      0 ≤ s → (e + 1 - s).toNat < 2 ^ fuel →
      (∀ t : Int, 0 ≤ t → t < s → check ranks req t = false) →
      (ans = none ∧ e = E ∨
        ∃ a : Int, ans = some a ∧ 0 ≤ a ∧ e + 1 = a ∧
          check ranks req a = true) →
      ∃ T : Int, searchLoop ranks req fuel s e ans = some T ∧ 0 ≤ T ∧
        check ranks req T = true ∧
        ∀ t : Int, 0 ≤ t → t < T → check ranks req t = false := by
  intro fuel
  induction fuel with
  | zero =>
    intro s e ans hs hsize hbelow hans
    have hse : e < s := by
      simp only [pow_zero, Nat.lt_one_iff] at hsize
      omega
    rcases hans with ⟨rfl, he⟩ | ⟨a, rfl, ha0, hae, hac⟩
    · exfalso
      have hfalse := hbelow E hE0 (by omega)
      rw [hE] at hfalse
      exact Bool.noConfusion hfalse
    · exact ⟨a, rfl, ha0, hac, fun t ht hta => hbelow t ht (by omega)⟩
  | succ fuel ih =>
    intro s e ans hs hsize hbelow hans
    simp only [searchLoop]
    by_cases hse : s ≤ e
    · rw [if_pos hse]
      set mid := (s + e) / 2 with hmid
      have hmlo : s ≤ mid := by omega
      have hmhi : mid ≤ e := by omega
      have hsz2 : (e + 1 - s).toNat < 2 * 2 ^ fuel := by
        calc (e + 1 - s).toNat < 2 ^ (fuel + 1) := hsize
        _ = 2 * 2 ^ fuel := by ring
      obtain ⟨hszL, hszR⟩ := interval_halves s e mid (2 ^ fuel) hse hmid hsz2
      by_cases hc : check ranks req mid = true
      · rw [if_pos hc]
        refine ih s (mid - 1) (some mid) hs hszL hbelow ?_
        exact Or.inr ⟨mid, rfl, by omega, by omega, hc⟩
      · rw [if_neg hc]
        have hcf : check ranks req mid = false := by simpa using hc
        refine ih (mid + 1) e ans (by omega) hszR ?_ hans
        intro t ht htm
        by_cases hts : t < s
        · exact hbelow t ht hts
        · by_cases hck : check ranks req t = true
          · have hT := mono t mid (by omega) hck
            rw [hT] at hcf
            exact Bool.noConfusion hcf
          · simpa using hck
    · rw [if_neg hse]
      rcases hans with ⟨rfl, he⟩ | ⟨a, rfl, ha0, hae, hac⟩
      · exfalso
        have hfalse := hbelow E hE0 (by omega)
        rw [hE] at hfalse
        exact Bool.noConfusion hfalse
      · exact ⟨a, rfl, ha0, hac, fun t ht hta => hbelow t ht (by omega)⟩

/-- When the predicate never holds, the loop never assigns `ans`. -/
theorem searchLoop_of_all_false (ranks : List Int) (req : Int)
    (hall : ∀ t : Int, check ranks req t = false) :
    ∀ fuel : Nat, ∀ s e : Int, ∀ ans : Option Int,
      searchLoop ranks req fuel s e ans = ans := by
  intro fuel
  induction fuel with
  | zero => intro s e ans; rfl
  | succ fuel ih =>
    intro s e ans
    simp only [searchLoop]
    by_cases hse : s ≤ e
    · rw [if_pos hse, if_neg (by simp [hall])]
      exact ih _ _ _
    · rw [if_neg hse]

/-- With enough fuel (the interval has fewer than `2 ^ fuel` points), the
fuel-driven loop agrees with the fuel-free well-founded recursion. -/
theorem searchLoop_eq_searchGo (ranks : List Int) (req : Int) :
    ∀ fuel : Nat, ∀ s e : Int, ∀ ans : Option Int,
      (e + 1 - s).toNat < 2 ^ fuel →
      searchLoop ranks req fuel s e ans = searchGo ranks req s e ans := by
  intro fuel
  induction fuel with
  | zero =>
    intro s e ans hsize
    have hse : ¬ s ≤ e := by
      simp only [pow_zero, Nat.lt_one_iff] at hsize
      omega
    rw [searchGo, if_neg hse]
    rfl
  | succ fuel ih =>
    intro s e ans hsize
    rw [searchGo]
    simp only [searchLoop]
    by_cases hse : s ≤ e
    · rw [if_pos hse, if_pos hse]
      set mid := (s + e) / 2 with hmid
      have hsz2 : (e + 1 - s).toNat < 2 * 2 ^ fuel := by
        calc (e + 1 - s).toNat < 2 ^ (fuel + 1) := hsize
        _ = 2 * 2 ^ fuel := by ring
      obtain ⟨hszL, hszR⟩ := interval_halves s e mid (2 ^ fuel) hse hmid hsz2
      by_cases hc : check ranks req mid = true
      · rw [if_pos hc, if_pos hc]
        exact ih s (mid - 1) (some mid) hszL
      · rw [if_neg hc, if_neg hc]
        exact ih (mid + 1) e ans hszR
    · rw [if_neg hse, if_neg hse]

/-- Top-level form of the loop invariant: if the predicate is monotone and
holds at the ceiling, `repairCars` returns the least feasible time. -/
theorem repairCars_finds (ranks : List Int) (req : Int)
    (mono : ∀ t t' : Int, t ≤ t' → check ranks req t = true →
      check ranks req t' = true)
    (hceil : check ranks req TIME_CEILING = true) :
    ∃ T : Int, repairCars ranks req = some T ∧ 0 ≤ T ∧
      check ranks req T = true ∧
      ∀ t : Int, 0 ≤ t → t < T → check ranks req t = false :=
  searchLoop_finds ranks req TIME_CEILING mono (by decide) hceil 64 0
    TIME_CEILING none le_rfl (by decide)
    (fun t ht h0 => absurd (ht.trans_lt h0) (lt_irrefl 0))
    (Or.inl ⟨rfl, rfl⟩)

theorem repairCars_of_nonpos_req (ranks : List Int) (req : Int) (h : req ≤ 0) :
    repairCars ranks req = some 0 := by
  obtain ⟨T, hT, hT0, hTc, hleast⟩ := repairCars_finds ranks req
    (fun t t' _ _ => check_of_nonpos_req ranks req t' h)
    (check_of_nonpos_req ranks req TIME_CEILING h)
  have hTzero : T = 0 := by
    rcases lt_or_eq_of_le hT0 with hlt | heq
    · have h0 := hleast 0 le_rfl hlt
      rw [check_of_nonpos_req ranks req 0 h] at h0
      exact Bool.noConfusion h0
    · omega
  rw [hTzero] at hT
  exact hT

/-- A single worker of rank at most 100 already completes `10 ^ 5` units by
the search ceiling, so the predicate holds there for bounded inputs. -/
theorem check_ceiling_of_bounded (r : Int) (rest : List Int) (req : Int)
    (hr1 : 1 ≤ r) (hr2 : r ≤ 100) (hreq : req ≤ 100000) :
    check (r :: rest) req TIME_CEILING = true := by
  rw [check_eq_sum]
  simp only [checkSum, List.map_cons, List.sum_cons, decide_eq_true_eq]
  have hcap : (100000 : Int) ≤ capacity TIME_CEILING r := by
    rw [capacity_eq]
    have hdiv : (10000000000000 : Int) ≤ TIME_CEILING / r := by
      rw [Int.le_ediv_iff_mul_le (by omega)]
      calc (10000000000000 : Int) * r
          ≤ 10000000000000 * 100 :=
            mul_le_mul_of_nonneg_left hr2 (by norm_num)
        _ ≤ TIME_CEILING := by norm_num [TIME_CEILING]
    have hnat : (10000000000000 : Nat) ≤ (TIME_CEILING / r).toNat := by
      have h' := Int.toNat_le_toNat hdiv
      omega
    calc (100000 : Int)
        ≤ (Nat.sqrt 10000000000000 : Int) := by
          exact_mod_cast Nat.le_sqrt.mpr (by norm_num)
      _ ≤ (Nat.sqrt (TIME_CEILING / r).toNat : Int) := by
          exact_mod_cast Nat.sqrt_le_sqrt hnat
  have hrest := capacity_sum_nonneg rest TIME_CEILING
  omega

/-! ### Claim theorems -/

/-- C1: for every non-empty list of positive ranks and positive requirement
whose ceiling is feasible, `repairCars` returns a time `T` such that the
predicate holds at `T`, fails at `T - 1` when `T > 0`, and fails at every
non-negative time below `T` — the least feasible time. -/
theorem repairCars_returns_least_feasible_time (ranks : List Int) (req : Int)
    (hne : ranks ≠ []) (hpos : ∀ r ∈ ranks, 0 < r) (hreq : 0 < req)
    (hceil : check ranks req TIME_CEILING = true) :
    ∃ T : Int, repairCars ranks req = some T ∧
      check ranks req T = true ∧
      (0 < T → check ranks req (T - 1) = false) ∧
      ∀ t : Int, 0 ≤ t → t < T → check ranks req t = false := by
  obtain ⟨T, hT, hT0, hTc, hleast⟩ := repairCars_finds ranks req
    (fun t t' h hc => check_mono_aux ranks req t t' hpos h hc) hceil
  exact ⟨T, hT, hTc, fun hTpos => hleast (T - 1) (by omega) (by omega), hleast⟩

set_option maxRecDepth 40000 in
theorem repairCars_returns_least_feasible_time_witness :
    ∃ T : Int, repairCars [1] 1 = some T ∧
      check [1] 1 T = true ∧
      (0 < T → check [1] 1 (T - 1) = false) ∧
      ∀ t : Int, 0 ≤ t → t < T → check [1] 1 t = false :=
  repairCars_returns_least_feasible_time [1] 1 (by decide)
    (by intro r hr; rw [List.mem_singleton] at hr; omega) (by decide) (by decide)

/-- C2: for positive ranks and requirement, the predicate is monotonically
non-decreasing in the candidate time. -/
theorem check_monotone_in_time (ranks : List Int) (req t t' : Int)
    (hpos : ∀ r ∈ ranks, 0 < r) (hreq : 0 < req) (ht : 0 ≤ t) (htt : t ≤ t')
    (hc : check ranks req t = true) : check ranks req t' = true :=
  check_mono_aux ranks req t t' hpos htt hc

theorem check_monotone_in_time_witness :
    check [1] 1 16 = true ∧ check [1] 1 25 = true :=
  ⟨by decide, check_monotone_in_time [1] 1 16 25
    (by intro r hr; rw [List.mem_singleton] at hr; omega) (by decide)
    (by decide) (by decide) (by decide)⟩

/-- C4: the early-exit predicate agrees with the reference full-sum
predicate for positive ranks and non-negative time. -/
theorem check_eq_reference_sum (ranks : List Int) (req time : Int)
    (hpos : ∀ r ∈ ranks, 0 < r) (htime : 0 ≤ time) :
    check ranks req time = checkSum ranks req time :=
  check_eq_sum ranks req time

theorem check_eq_reference_sum_witness :
    check [4, 2, 3, 1] 10 16 = checkSum [4, 2, 3, 1] 10 16 :=
  check_eq_reference_sum [4, 2, 3, 1] 10 16
    (by intro r hr; fin_cases hr <;> omega) (by decide)

set_option maxRecDepth 40000 in
/-- C5 counterexample: with the non-positive requirement `0` the solver does
not report any failure; it silently returns the time `0`. -/
theorem repairCars_silent_on_invalid : repairCars [1] 0 = some 0 := by decide

/-- C5 amended: the solver performs no input validation: with a non-positive
requirement it silently returns time `0`, and with an empty rank list and a
positive requirement the search never assigns the answer variable and the
uninitialised value is returned (modelled as `none`). -/
theorem repairCars_no_validation (ranks : List Int) (req : Int) :
    (req ≤ 0 → repairCars ranks req = some 0) ∧
    (0 < req → repairCars [] req = none) := by
  constructor
  · intro h
    exact repairCars_of_nonpos_req ranks req h
  · intro h
    refine searchLoop_of_all_false [] req ?_ 64 0 TIME_CEILING none
    intro t
    simp only [check, decide_eq_false_iff_not]
    omega

set_option maxRecDepth 40000 in
theorem repairCars_no_validation_witness :
    repairCars [7] (-3) = some 0 ∧ repairCars [] 2 = none :=
  ⟨(repairCars_no_validation [7] (-3)).1 (by decide),
    (repairCars_no_validation [] 2).2 (by decide)⟩

set_option maxRecDepth 40000 in
/-- C6: on ranks `[4, 2, 3, 1]` with requirement `10` the solver returns
`16`; the exact capacity sum at time `16` reaches `10` and at `15` does
not. -/
theorem repairCars_example_4231 :
    repairCars [4, 2, 3, 1] 10 = some 16 ∧
      (10 : Int) ≤ capacity 16 4 + capacity 16 2 + capacity 16 3 +
        capacity 16 1 ∧
      ¬ (10 : Int) ≤ capacity 15 4 + capacity 15 2 + capacity 15 3 +
        capacity 15 1 :=
  ⟨by decide, by decide, by decide⟩

set_option maxRecDepth 40000 in
/-- C7: on ranks `[1]` with requirement `4`, and on ranks `[5, 1, 8]` with
requirement `6`, the solver returns `16`. -/
theorem repairCars_example_single_and_triple :
    repairCars [1] 4 = some 16 ∧ repairCars [5, 1, 8] 6 = some 16 :=
  ⟨by decide, by decide⟩

/-- C8: for a non-empty rank list with values in `[1, 100]` and requirement
in `[1, 10^5]`, the predicate holds at the ceiling `10^15`, so the binary
search assigns `ans` at least once and returns a well-defined value. -/
theorem ceiling_feasible_and_result_defined (ranks : List Int) (req : Int)
    (hne : ranks ≠ []) (hbounds : ∀ r ∈ ranks, 1 ≤ r ∧ r ≤ 100)
    (hreq1 : 1 ≤ req) (hreq2 : req ≤ 10 ^ 5) :
    check ranks req TIME_CEILING = true ∧
      ∃ T : Int, repairCars ranks req = some T := by
  cases ranks with
  | nil => exact absurd rfl hne
  | cons r rest =>
    have hr := hbounds r (by simp)
    have hceil := check_ceiling_of_bounded r rest req hr.1 hr.2 (by omega)
    obtain ⟨T, hT, _, _, _⟩ := repairCars_finds (r :: rest) req
      (fun t t' h hc => check_mono_aux (r :: rest) req t t'
        (fun x hx => by have := hbounds x hx; omega) h hc) hceil
    exact ⟨hceil, T, hT⟩

set_option maxRecDepth 40000 in
theorem ceiling_feasible_and_result_defined_witness :
    check [1] 1 TIME_CEILING = true ∧ ∃ T : Int, repairCars [1] 1 = some T :=
  ceiling_feasible_and_result_defined [1] 1 (by decide)
    (by intro r hr; rw [List.mem_singleton] at hr; omega) (by decide)
    (by decide)

/-- C9: the binary-search loop terminates on every input: `repairCars`
coincides with `searchGo`, the same loop body defined by well-founded
recursion on the interval length `(e + 1 - s).toNat`. -/
theorem repairCars_eq_total_search (ranks : List Int) (req : Int) :
    repairCars ranks req = searchGo ranks req 0 TIME_CEILING none :=
  searchLoop_eq_searchGo ranks req 64 0 TIME_CEILING none (by decide)

/-- C10: with a non-positive requirement `check` is true for every rank
list and time, and `repairCars` consequently returns `0` rather than
failing. -/
theorem check_true_and_zero_on_nonpos_req (ranks : List Int) (req t : Int)
    (h : req ≤ 0) :
    check ranks req t = true ∧ repairCars ranks req = some 0 :=
  ⟨check_of_nonpos_req ranks req t h, repairCars_of_nonpos_req ranks req h⟩

set_option maxRecDepth 40000 in
theorem check_true_and_zero_on_nonpos_req_witness :
    check [] (-1) 5 = true ∧ repairCars [] (-1) = some 0 :=
  check_true_and_zero_on_nonpos_req [] (-1) 5 (by decide)

end RepairCars
